import Mathlib

/-
  Verification of the laminar CI scheduler core (src/src/laminar.cpp) against its
  natural-language specification.

  Shallow embedding notes:
  * All in-memory scheduler state (contexts, queue, active set, build counters)
    is collected into one `LaminarState` record; the C++ methods become pure
    state transformers.
  * The PostgreSQL `builds` table is modelled as a list of rows; the relevant
    queries are modelled directly, including PostgreSQL ordering semantics for
    `ORDER BY completedAt DESC` (NULLs sort first for DESC order).
  * `fnmatch` is an external libc function; it is abstracted as a parameter
    `fnm : String → String → Bool` of the scheduler operations.
  * Machine integers: the retention loop casts an unsigned 32-bit difference to
    a signed int (`static_cast<int>(oldestActive - numKeepRunDirs)`), and the
    JOB-status `pages` field is computed in unsigned 32-bit arithmetic; both are
    modelled with explicit `% 2^32` arithmetic on `Nat`/`Int`.
  * Result codes follow the RunState enum used by laminar.cpp itself:
    UNKNOWN = 0 (`result.value_or(0)`), SUCCESS = 5 (`result = 5` in SQL).
-/

namespace Laminar

/-- An executor pool, as maintained in the `contexts` map: name, capacity,
current occupancy and the glob patterns of jobs it accepts. -/
structure Context where
  name : String
  numExecutors : Nat
  busyExecutors : Nat
  jobPatterns : List String
  deriving DecidableEq, Repr

/-- One invocation of a job. `ctxIdx` is the index (into the contexts list) of
the context the run was assigned to; `none` while the run is only queued.
`lastResult` is the hint passed to `Run::start` by `tryStartRun`. -/
structure Run where
  name : String
  build : Nat
  queuedAt : Nat
  startedAt : Option Nat
  ctxIdx : Option Nat
  lastResult : Nat
  log : String
  deriving DecidableEq, Repr

/-- A row of the `builds` table. -/
structure BuildRow where
  name : String
  number : Nat
  queuedAt : Nat
  startedAt : Option Nat
  completedAt : Option Nat
  result : Option Nat
  node : Option String
  output : Option String
  deriving DecidableEq, Repr

/-- Events broadcast to HTTP subscribers via `notifyEvent`. The C++ code also
attaches a queueIndex to `job_started`; its value is produced by
`std::distance(it, queuedJobs.begin())`, which the C++ standard leaves
undefined for a non-head list iterator, so it is not modelled. -/
inductive Event where
  | jobQueued (name : String) (number : Nat) (queueIndex : Nat)
  | jobStarted (name : String) (number : Nat)
  | jobCompleted (name : String) (number : Nat)
  deriving DecidableEq, Repr

/-- The in-memory scheduler state together with the modelled environment:
the `builds` table, the emitted event stream, the `run/<name>/<i>` directories
present on disk, and the existence of `cfg/jobs/<name>.run` scripts. -/
structure LaminarState where
  contexts : List Context
  queuedJobs : List Run
  activeJobs : List Run
  buildNums : String → Nat
  jobContexts : String → List String
  builds : List BuildRow
  events : List Event
  rundirs : List (String × Nat)
  hasRunFile : String → Bool
  numKeepRunDirs : Nat
  now : Nat

/-- `Laminar::canQueue` (laminar.cpp:785-802): capacity check, then the
context's job patterns against the run name, then the job's configured
context patterns against the context name. -/
def canQueue (fnm : String → String → Bool) (jc : String → List String)
    (ctx : Context) (run : Run) : Bool :=
  if ctx.numExecutors ≤ ctx.busyExecutors then false
  else if ctx.jobPatterns.any (fun p => fnm p run.name) then true
  else (jc run.name).any (fun p => fnm p ctx.name)

/-- Index of the first context in the registry for which `canQueue` holds,
mirroring the `for(auto& sc : contexts)` loop of `tryStartRun`
(laminar.cpp:805-808): contexts are tried in order, the first match wins. -/
def startIdx (fnm : String → String → Bool) (jc : String → List String)
    (run : Run) : List Context → Option Nat
  | [] => none
  | c :: cs =>
    if canQueue fnm jc c run then some 0
    else (startIdx fnm jc run cs).map (fun k => k + 1)

/-- Apply `f` to the busyExecutors counter of the context at index `i`
(the in-place `ctx->busyExecutors++` / `ctx->busyExecutors--`). -/
def setBusy (f : Nat → Nat) : List Context → Nat → List Context
  | [], _ => []
  | c :: cs, 0 => { c with busyExecutors := f c.busyExecutors } :: cs
  | c :: cs, i + 1 => c :: setBusy f cs i

/-- PostgreSQL ordering for `ORDER BY completedAt DESC`: `pgAfterDesc a b` holds
when a row with key `a` sorts strictly before a row with key `b`. NULLs sort
first under DESC order in PostgreSQL. -/
def pgAfterDesc (a b : Option Nat) : Bool :=
  match a, b with
  | none, none => false
  | none, some _ => true
  | some _, none => false
  | some x, some y => y < x

/-- `... ORDER BY completedAt DESC LIMIT 1` over a list of rows: the first row
of the sorted output (ties between equal keys keep table order). -/
def limitOneDesc (rows : List BuildRow) : Option BuildRow :=
  rows.foldl
    (fun best r =>
      match best with
      | none => some r
      | some b => if pgAfterDesc r.completedAt b.completedAt then some r else some b)
    none

/-- The lastResult query of `tryStartRun` (laminar.cpp:813-818):
`SELECT result FROM builds WHERE name = $1 ORDER BY completedAt DESC LIMIT 1`,
then `RunState(result.value_or(0))`. -/
def lastResultQuery (builds : List BuildRow) (nm : String) : Nat :=
  match limitOneDesc (builds.filter fun row => row.name == nm) with
  | none => 0
  | some row => row.result.getD 0

/-- Modelled from the spec: the specification's reading of the lastResult hint
("most recently completed result for the job, UNKNOWN if none"), i.e. the
result of the row with the greatest completedAt among rows whose completedAt is
set. Used only to state the divergence of the code from the spec. -/
def specLastResult (builds : List BuildRow) (nm : String) : Nat :=
  match limitOneDesc ((builds.filter fun row => row.name == nm).filter
      fun row => row.completedAt.isSome) with
  | none => 0
  | some row => row.result.getD 0

/-- The run record as updated by a successful `tryStartRun`: context assigned,
startedAt recorded, lastResult hint passed to `Run::start`. -/
def startedRun (st : LaminarState) (run : Run) (i : Nat) : Run :=
  { run with
    ctxIdx := some i
    startedAt := some st.now
    lastResult := lastResultQuery st.builds run.name }

/-- State effects of a successful `tryStartRun` (laminar.cpp:808-863): update
the builds row with node and startedAt, increment the chosen context's
busyExecutors, emit `job_started`. -/
def startedState (st : LaminarState) (run : Run) (i : Nat) : LaminarState :=
  { st with
    builds := st.builds.map fun row =>
      if row.name == run.name && row.number == run.build then
        { row with node := (st.contexts[i]?).map Context.name, startedAt := some st.now }
      else row
    contexts := setBusy (fun b => b + 1) st.contexts i
    events := st.events ++ [Event.jobStarted run.name run.build] }

/-- `Laminar::tryStartRun` (laminar.cpp:804-867): find the first context that
can accept the run; on success perform the start effects and return the
started run together with the new state, otherwise return none. -/
def tryStartRun (fnm : String → String → Bool) (st : LaminarState) (run : Run) :
    Option (Run × LaminarState) :=
  (startIdx fnm st.jobContexts run st.contexts).map
    fun i => (startedRun st run i, startedState st run i)

/-- The queue scan of `Laminar::assignNewJobs` (laminar.cpp:869-879): walk the
pending entries; a successful `tryStartRun` moves the entry into the active
set and drops it from the queue, a failed one keeps it (accumulated in `kept`)
and scanning continues. -/
def assignLoop (fnm : String → String → Bool) :
    LaminarState → List Run → List Run → LaminarState
  | st, [], kept => { st with queuedJobs := kept.reverse }
  | st, r :: rest, kept =>
    match tryStartRun fnm st r with
    | some (r2, st2) =>
      assignLoop fnm { st2 with activeJobs := st2.activeJobs ++ [r2] } rest kept
    | none => assignLoop fnm st rest (r :: kept)

/-- `Laminar::assignNewJobs` (laminar.cpp:869-879). -/
def assignNewJobs (fnm : String → String → Bool) (st : LaminarState) : LaminarState :=
  assignLoop fnm st st.queuedJobs []

/-- The Run object constructed by `queueJob` (laminar.cpp:747): build number
`++buildNums[name]`, queuedAt now, no context yet. -/
def queuedRun (st : LaminarState) (nm : String) : Run :=
  { name := nm
    build := st.buildNums nm + 1
    queuedAt := st.now
    startedAt := none
    ctxIdx := none
    lastResult := 0
    log := "" }

/-- The builds row inserted by `queueJob` (laminar.cpp:754-755). -/
def queuedRow (st : LaminarState) (nm : String) : BuildRow :=
  { name := nm, number := st.buildNums nm + 1, queuedAt := st.now, startedAt := none
    completedAt := none, result := none, node := none, output := none }

/-- The queue after `queueJob` inserts the new run at the front or the back
(laminar.cpp:748-751). -/
def pushQueue (st : LaminarState) (nm : String) (front : Bool) : List Run :=
  if front then queuedRun st nm :: st.queuedJobs else st.queuedJobs ++ [queuedRun st nm]

/-- The state right after the successful part of `queueJob` and before its
trailing `assignNewJobs` call: default context ensured for the job, build
number allocated, run queued, builds row inserted, `job_queued` emitted with
queueIndex `frontOfQueue ? 0 : (queuedJobs.size() - 1)` (laminar.cpp:743-767). -/
def queuedStateAfter (st : LaminarState) (nm : String) (front : Bool) : LaminarState :=
  { st with
    jobContexts := fun s =>
      if s == nm && (st.jobContexts nm).isEmpty then ["default"] else st.jobContexts s
    buildNums := fun s => if s == nm then st.buildNums nm + 1 else st.buildNums s
    queuedJobs := pushQueue st nm front
    builds := st.builds ++ [queuedRow st nm]
    events := st.events ++ [Event.jobQueued nm (st.buildNums nm + 1)
      (if front then 0 else (pushQueue st nm front).length - 1)] }

/-- `Laminar::queueJob` (laminar.cpp:737-771): check `cfg/jobs/<name>.run`
exists (else return null with no side effect), perform the queueing effects,
then invoke `assignNewJobs`. -/
def queueJob (fnm : String → String → Bool) (st : LaminarState) (nm : String)
    (frontOfQueue : Bool) : Option Run × LaminarState :=
  if st.hasRunFile nm then
    (some (queuedRun st nm), assignNewJobs fnm (queuedStateAfter st nm frontOfQueue))
  else (none, st)

/-- Number of active runs assigned to the context at index `i`. -/
def countCtx (active : List Run) (i : Nat) : Nat :=
  (active.filter fun r => r.ctxIdx == some i).length

/-- Modelled from the spec: the minimum build number among active runs of a
job. The C++ reads `(*it.first)->build` from the byJobName index of `RunSet`
(run.h, not part of the provided sources); the spec describes it as
"minActive.build" of the oldest active run of the job. -/
def minActiveBuild (active : List Run) (nm : String) : Option Nat :=
  (active.filter fun r => r.name == nm).foldl
    (fun acc r =>
      match acc with
      | none => some r.build
      | some m => some (min m r.build))
    none

/-- oldestActive as computed in `handleRunFinished` (laminar.cpp:930-931):
one less than the oldest still-active build of the job if any, else the
latest known build number of the job. -/
def oldestActiveOf (active : List Run) (buildNums : String → Nat) (nm : String) : Nat :=
  match minActiveBuild active nm with
  | none => buildNums nm
  | some m => m - 1

/-- Unsigned 32-bit reduction. -/
def u32 (n : Nat) : Nat := n % 4294967296

/-- Reinterpret an unsigned 32-bit value as a signed int
(`static_cast<int>`). -/
def toInt32 (n : Nat) : Int :=
  if u32 n < 2147483648 then (u32 n : Int) else (u32 n : Int) - 4294967296

/-- The initial loop counter of the retention loop (laminar.cpp:932):
`static_cast<int>(oldestActive - numKeepRunDirs)` with unsigned operands. -/
def retentionStart (oldestActive numKeep : Nat) : Int :=
  toInt32 (u32 oldestActive + (4294967296 - u32 numKeep))

/-- Number of loop iterations attempted by the retention loop: the start value
clamped at zero (`for(int i = start; i > 0; i--)`). -/
def retentionCount (oldestActive numKeep : Nat) : Nat :=
  (retentionStart oldestActive numKeep).toNat

/-- The retention loop body (laminar.cpp:932-947): for i = start down to 1,
stop at the first `run/<name>/<i>` that does not exist, otherwise remove it. -/
def retentionLoop (nm : String) : List (String × Nat) → Nat → List (String × Nat)
  | dirs, 0 => dirs
  | dirs, i + 1 =>
    if (nm, i + 1) ∈ dirs then retentionLoop nm (dirs.erase (nm, i + 1)) i
    else dirs

/-- `Laminar::handleRunFinished` (laminar.cpp:881-953) up to, but excluding,
the final `assignNewJobs` call: decrement the context's busyExecutors, persist
completedAt/result/output, emit `job_completed`, drop the run from the active
set, then prune old run directories counting back from oldestActive. -/
def finishCore (st : LaminarState) (r : Run) (result : Nat) : LaminarState :=
  let i := r.ctxIdx.getD 0
  let active2 := st.activeJobs.erase r
  let oldestActive := oldestActiveOf active2 st.buildNums r.name
  { st with
    contexts := setBusy (fun b => b - 1) st.contexts i
    builds := st.builds.map fun row =>
      if row.name == r.name && row.number == r.build then
        { row with completedAt := some st.now, result := some result, output := some r.log }
      else row
    events := st.events ++ [Event.jobCompleted r.name r.build]
    activeJobs := active2
    rundirs := retentionLoop r.name st.rundirs (retentionCount oldestActive st.numKeepRunDirs) }

/-- `Laminar::handleRunFinished` (laminar.cpp:881-953) including the trailing
`assignNewJobs` ("in case we freed up an executor, check the queue"). -/
def handleRunFinished (fnm : String → String → Bool) (st : LaminarState) (r : Run)
    (result : Nat) : LaminarState :=
  assignNewJobs fnm (finishCore st r result)

/-- Modelled from the spec: `Laminar::activeRun` (declared in laminar.h, not
part of the provided sources) looks an active run up by job name and build
number; the spec contract is "live buffer for active runs". -/
def activeRunLookup (active : List Run) (nm : String) (num : Nat) : Option Run :=
  active.find? fun r => r.name == nm && r.build == num

/-- The rows the output query of `handleLogRequest` sees:
`SELECT output FROM builds WHERE name = $1 AND number = $2`. -/
def rowsFor (builds : List BuildRow) (nm : String) (num : Nat) : List BuildRow :=
  builds.filter fun row => row.name == nm && row.number == num

/-- The `output` variable after the for_each loop of `handleLogRequest`
(laminar.cpp:292-298): starts empty, each returned row overwrites it with its
output blob (a NULL blob is modelled as the empty string). -/
def dbOutput (builds : List BuildRow) (nm : String) (num : Nat) : String :=
  (rowsFor builds nm num).foldl (fun _ row => row.output.getD "") ""

/-- `Laminar::handleLogRequest` (laminar.cpp:286-305): the live log buffer with
complete=false for an active run; otherwise the persisted blob with
complete=true, but only when that blob is non-empty (`if(output.size())`);
otherwise missing. -/
def handleLogRequest (st : LaminarState) (nm : String) (num : Nat) :
    Option (String × Bool) :=
  match activeRunLookup st.activeJobs nm num with
  | some run => some (run.log, false)
  | none =>
    let output := dbOutput st.builds nm num
    if output.length ≠ 0 then some (output, true) else none

/-- Rows per page in the JOB-scope status document (laminar.cpp:416). -/
def runsPerPage : Nat := 20

/-- The `pages` field of the JOB-scope status document (laminar.cpp:449):
`(nRuns-1) / runsPerPage + 1` computed on an unsigned 32-bit count. -/
def pagesOf (nRuns : Nat) : Nat :=
  u32 (u32 nRuns + (4294967296 - 1)) / runsPerPage + 1

/-- The count the pages computation runs on:
`SELECT COUNT(*) FROM builds WHERE name = $1 AND result IS NOT NULL`. -/
def countCompleted (builds : List BuildRow) (nm : String) : Nat :=
  (builds.filter fun row => row.name == nm && row.result.isSome).length

/-- The `pages` field produced by `getStatus` for a JOB scope. -/
def getStatusJobPages (builds : List BuildRow) (nm : String) : Nat :=
  pagesOf (countCompleted builds nm)

/-- Recognizer for `job_queued` events. -/
def isJobQueued : Event → Bool
  | Event.jobQueued _ _ _ => true
  | _ => false

/-- Recognizer for `job_started` events. -/
def isJobStarted : Event → Bool
  | Event.jobStarted _ _ => true
  | _ => false

/-- The in-place part of `Laminar::loadConfiguration` (laminar.cpp:652-676):
each existing context whose config file is re-read keeps its identity and its
busyExecutors, but `numExecutors` and `jobPatterns` are overwritten from the
parsed file (`context->numExecutors = conf.get<int>("EXECUTORS", 6)`,
laminar.cpp:663) with no clamp against the current busyExecutors. `exec` and
`pats` are the parsed per-context EXECUTORS and JOBS values. -/
def loadConfigContexts (exec : String → Nat) (pats : String → List String)
    (ctxs : List Context) : List Context :=
  ctxs.map fun c => { c with numExecutors := exec c.name, jobPatterns := pats c.name }

/-- Startup states: no queued or active runs, every context idle. -/
def InitState (st : LaminarState) : Prop :=
  st.queuedJobs = [] ∧ st.activeJobs = [] ∧ ∀ c ∈ st.contexts, c.busyExecutors = 0

/-- One transition of the event loop: a queueJob request, a dispatcher pass, a
child-reap completion of an active run, or a configuration reload (the watch
callback of laminar.cpp:249-253: `loadConfiguration` followed by
`assignNewJobs`). The reload rewrites every registered context's
numExecutors/jobPatterns in place from the re-read files, replaces the job
context map and re-reads LAMINAR_KEEP_RUNDIRS; addition and removal of
context files (laminar.cpp:661/681-695) only change registry membership and
never alter a surviving context's busyExecutors or the active set (runs hold
shared pointers, and a re-added name is a fresh context with no runs), so
they are not modelled. -/
inductive Step (fnm : String → String → Bool) : LaminarState → LaminarState → Prop where
  | queue (st : LaminarState) (nm : String) (front : Bool) :
      Step fnm st (queueJob fnm st nm front).2
  | assign (st : LaminarState) : Step fnm st (assignNewJobs fnm st)
  | finish (st : LaminarState) (r : Run) (result : Nat) :
      r ∈ st.activeJobs → Step fnm st (handleRunFinished fnm st r result)
  | reload (st : LaminarState) (exec : String → Nat) (pats : String → List String)
      (jc : String → List String) (keep : Nat) :
      Step fnm st (assignNewJobs fnm
        { st with contexts := loadConfigContexts exec pats st.contexts,
                  jobContexts := jc, numKeepRunDirs := keep })

/-- States reachable from a startup state by event-loop transitions,
configuration reloads included. -/
inductive Reachable (fnm : String → String → Bool) : LaminarState → Prop where
  | init (st : LaminarState) : InitState st → Reachable fnm st
  | step (st stB : LaminarState) : Reachable fnm st → Step fnm st stB → Reachable fnm stB

/-- States reachable by the scheduler operations alone (no configuration
reload in between). -/
inductive SchedReachable (fnm : String → String → Bool) : LaminarState → Prop where
  | init (st : LaminarState) : InitState st → SchedReachable fnm st
  | queue (st : LaminarState) (nm : String) (front : Bool) :
      SchedReachable fnm st → SchedReachable fnm (queueJob fnm st nm front).2
  | assign (st : LaminarState) :
      SchedReachable fnm st → SchedReachable fnm (assignNewJobs fnm st)
  | finish (st : LaminarState) (r : Run) (result : Nat) :
      r ∈ st.activeJobs → SchedReachable fnm st →
      SchedReachable fnm (handleRunFinished fnm st r result)

/-- Executor accounting invariant: every registered context is within capacity
and its busyExecutors equals the number of active runs assigned to it. -/
def ContextsOk (st : LaminarState) : Prop :=
  ∀ i c, st.contexts[i]? = some c →
    c.busyExecutors ≤ c.numExecutors ∧ c.busyExecutors = countCtx st.activeJobs i

/-- Every active run carries a valid context index. -/
def ActiveOk (st : LaminarState) : Prop :=
  ∀ r ∈ st.activeJobs, ∃ i, r.ctxIdx = some i ∧ i < st.contexts.length

/-- The scheduler invariant. -/
def Inv (st : LaminarState) : Prop := ContextsOk st ∧ ActiveOk st

/-- The part of the accounting invariant that survives configuration reloads:
busyExecutors equals the number of active runs on the context (the capacity
bound is not included, since a reload can rewrite numExecutors below it). -/
def ContextsCount (st : LaminarState) : Prop :=
  ∀ i c, st.contexts[i]? = some c → c.busyExecutors = countCtx st.activeJobs i

/-- The reload-proof invariant. -/
def InvW (st : LaminarState) : Prop := ContextsCount st ∧ ActiveOk st

/-- Literal equality used as a concrete pattern matcher in witnesses. -/
def fnmEq : String → String → Bool := fun p s => p == s

/-- A state whose filesystem has no job scripts at all. -/
def c4State : LaminarState :=
  { contexts := [{ name := "default", numExecutors := 6, busyExecutors := 0, jobPatterns := [] }]
    queuedJobs := []
    activeJobs := []
    buildNums := fun _ => 0
    jobContexts := fun _ => []
    builds := []
    events := []
    rundirs := []
    hasRunFile := fun _ => false
    numKeepRunDirs := 0
    now := 0 }

/-- The builds table at the moment `tryStartRun` runs for build 2 of job
alpha: build 1 completed with SUCCESS, build 2 just queued (NULL completedAt,
NULL result). -/
def c5Rows : List BuildRow :=
  [ { name := "alpha", number := 1, queuedAt := 0, startedAt := some 10
      completedAt := some 100, result := some 5, node := some "default", output := some "ok" },
    { name := "alpha", number := 2, queuedAt := 200, startedAt := none
      completedAt := none, result := none, node := none, output := none } ]

/-- The queued run of build 2 of job alpha. -/
def c5Run : Run :=
  { name := "alpha", build := 2, queuedAt := 200, startedAt := none, ctxIdx := none
    lastResult := 0, log := "" }

/-- Scheduler state in which the default context is free to start `c5Run`. -/
def c5State : LaminarState :=
  { contexts := [{ name := "default", numExecutors := 1, busyExecutors := 0, jobPatterns := [] }]
    queuedJobs := [c5Run]
    activeJobs := []
    buildNums := fun _ => 2
    jobContexts := fun _ => ["default"]
    builds := c5Rows
    events := []
    rundirs := []
    hasRunFile := fun _ => true
    numKeepRunDirs := 0
    now := 200 }

/-- A completed build whose persisted output blob is empty. -/
def c7Row : BuildRow :=
  { name := "alpha", number := 1, queuedAt := 0, startedAt := some 1
    completedAt := some 2, result := some 5, node := some "default", output := some "" }

/-- A state containing only the completed-with-empty-output build. -/
def c7State : LaminarState :=
  { contexts := []
    queuedJobs := []
    activeJobs := []
    buildNums := fun _ => 1
    jobContexts := fun _ => ["default"]
    builds := [c7Row]
    events := []
    rundirs := []
    hasRunFile := fun _ => true
    numKeepRunDirs := 0
    now := 3 }

/-- An active run with a non-empty live log buffer. -/
def c7ActiveRun : Run :=
  { name := "beta", build := 3, queuedAt := 0, startedAt := some 1, ctxIdx := some 0
    lastResult := 0, log := "hello" }

/-- A state in which `c7ActiveRun` is active. -/
def c7WitState : LaminarState :=
  { contexts := [{ name := "default", numExecutors := 1, busyExecutors := 1, jobPatterns := [] }]
    queuedJobs := []
    activeJobs := [c7ActiveRun]
    buildNums := fun _ => 3
    jobContexts := fun _ => ["default"]
    builds := []
    events := []
    rundirs := []
    hasRunFile := fun _ => true
    numKeepRunDirs := 0
    now := 2 }

/-- A builds table with a single completed build of job gamma. -/
def c10Rows : List BuildRow :=
  [ { name := "gamma", number := 1, queuedAt := 0, startedAt := some 1
      completedAt := some 2, result := some 5, node := some "default", output := some "x" } ]

/-- Head of the queue in the non-FIFO witness: blocked (its only matching
context is full). -/
def c3r0 : Run :=
  { name := "alpha", build := 1, queuedAt := 0, startedAt := none, ctxIdx := none
    lastResult := 0, log := "" }

/-- Second queue entry in the non-FIFO witness: placeable on the free ctx2. -/
def c3r1 : Run :=
  { name := "beta", build := 1, queuedAt := 0, startedAt := none, ctxIdx := none
    lastResult := 0, log := "" }

/-- ctx1 (matching alpha) is full, ctx2 (matching beta) is free. -/
def c3State : LaminarState :=
  { contexts := [{ name := "ctx1", numExecutors := 1, busyExecutors := 1, jobPatterns := ["alpha"] },
                 { name := "ctx2", numExecutors := 1, busyExecutors := 0, jobPatterns := ["beta"] }]
    queuedJobs := [c3r0, c3r1]
    activeJobs := []
    buildNums := fun _ => 1
    jobContexts := fun _ => []
    builds := []
    events := []
    rundirs := []
    hasRunFile := fun _ => true
    numKeepRunDirs := 0
    now := 5 }

/-- A queued run that cannot be placed: its only context is at capacity. -/
def c9Run : Run :=
  { name := "alpha", build := 1, queuedAt := 0, startedAt := none, ctxIdx := none
    lastResult := 0, log := "" }

/-- A blocked state: one queued run, its context full. -/
def c9State : LaminarState :=
  { contexts := [{ name := "default", numExecutors := 1, busyExecutors := 1, jobPatterns := [] }]
    queuedJobs := [c9Run]
    activeJobs := []
    buildNums := fun _ => 1
    jobContexts := fun _ => ["default"]
    builds := []
    events := []
    rundirs := []
    hasRunFile := fun _ => true
    numKeepRunDirs := 0
    now := 5 }

/-- A pre-existing queued run behind which the C8 witness enqueues. -/
def c8Existing : Run :=
  { name := "old", build := 1, queuedAt := 0, startedAt := none, ctxIdx := none
    lastResult := 0, log := "" }

/-- A state with one prior job_queued event, one queued run and a full
context, used to watch queueJob emit its event at the back position. -/
def c8State : LaminarState :=
  { contexts := [{ name := "default", numExecutors := 1, busyExecutors := 1, jobPatterns := [] }]
    queuedJobs := [c8Existing]
    activeJobs := []
    buildNums := fun _ => 3
    jobContexts := fun _ => ["default"]
    builds := []
    events := [Event.jobQueued "old" 1 0]
    rundirs := []
    hasRunFile := fun _ => true
    numKeepRunDirs := 0
    now := 7 }

/-- The finishing run of the retention witness: build 5 of alpha, no other
active run of the job. -/
def c6Run : Run :=
  { name := "alpha", build := 5, queuedAt := 0, startedAt := some 1, ctxIdx := some 0
    lastResult := 0, log := "done" }

/-- Retention witness state: buildNums alpha = 5, keep 2 run directories,
directories 1..5 present on disk. -/
def c6State : LaminarState :=
  { contexts := [{ name := "default", numExecutors := 1, busyExecutors := 1, jobPatterns := [] }]
    queuedJobs := []
    activeJobs := [c6Run]
    buildNums := fun _ => 5
    jobContexts := fun _ => ["default"]
    builds := []
    events := []
    rundirs := [("alpha", 1), ("alpha", 2), ("alpha", 3), ("alpha", 4), ("alpha", 5)]
    hasRunFile := fun _ => true
    numKeepRunDirs := 2
    now := 9 }

/-- A one-context startup state used as the reachable witness for the
executor-accounting invariant. -/
def c1State : LaminarState :=
  { contexts := [{ name := "default", numExecutors := 6, busyExecutors := 0, jobPatterns := [] }]
    queuedJobs := []
    activeJobs := []
    buildNums := fun _ => 0
    jobContexts := fun _ => ["default"]
    builds := []
    events := []
    rundirs := []
    hasRunFile := fun _ => false
    numKeepRunDirs := 0
    now := 0 }

/-- The single context of `c1State`. -/
def c1Ctx : Context :=
  { name := "default", numExecutors := 6, busyExecutors := 0, jobPatterns := [] }

/-- Startup state of the C1 counterexample: one one-executor context, job
alpha available. -/
def c1bState : LaminarState :=
  { contexts := [{ name := "default", numExecutors := 1, busyExecutors := 0, jobPatterns := [] }]
    queuedJobs := []
    activeJobs := []
    buildNums := fun _ => 0
    jobContexts := fun _ => ["default"]
    builds := []
    events := []
    rundirs := []
    hasRunFile := fun _ => true
    numKeepRunDirs := 0
    now := 0 }

/-- The state after queueing (and thereby starting) build 1 of alpha in
`c1bState`: the context now has busyExecutors = 1. -/
def c1bMid : LaminarState := (queueJob fnmEq c1bState "alpha" false).2

/-- The re-read EXECUTORS values of the counterexample reload: the edited
config file now says 0 executors. -/
def c1bExec : String → Nat := fun _ => 0

/-- The re-read JOBS patterns of the counterexample reload. -/
def c1bPats : String → List String := fun _ => []

/-- The re-read job context patterns of the counterexample reload. -/
def c1bJc : String → List String := fun _ => ["default"]

/-- The state after the counterexample reload: numExecutors was rewritten in
place to 0 while the run of alpha is still active (busyExecutors = 1). -/
def c1bFinal : LaminarState :=
  assignNewJobs fnmEq
    { c1bMid with contexts := loadConfigContexts c1bExec c1bPats c1bMid.contexts,
                  jobContexts := c1bJc, numKeepRunDirs := 0 }

/-- The context of `c1bFinal`: over capacity. -/
def c1bCtx : Context :=
  { name := "default", numExecutors := 0, busyExecutors := 1, jobPatterns := [] }

/-- The context of `c1bMid`: one executor, one busy. -/
def c1bMidCtx : Context :=
  { name := "default", numExecutors := 1, busyExecutors := 1, jobPatterns := [] }

theorem string_eq_empty_of_length_eq_zero {s : String} (h : s.length = 0) : s = "" := by
  cases s with
  | mk data =>
    have hd : data = [] := List.length_eq_zero.mp (by simpa [String.length] using h)
    subst hd
    rfl

/-- Claim C2: for every context and run, `canQueue` returns true if and only if
the context has spare capacity and either one of the context's job patterns
matches the run's job name or one of the job's configured context patterns
matches the context's name. The glob matcher (libc fnmatch with FNM_EXTMATCH)
is abstracted as the parameter `fnm`. -/
theorem canQueue_iff (fnm : String → String → Bool) (jc : String → List String)
    (ctx : Context) (run : Run) :
    canQueue fnm jc ctx run = true ↔
      ctx.busyExecutors < ctx.numExecutors ∧
        ((∃ p ∈ ctx.jobPatterns, fnm p run.name = true) ∨
          ∃ p ∈ jc run.name, fnm p ctx.name = true) := by
  unfold canQueue
  by_cases h : ctx.numExecutors ≤ ctx.busyExecutors
  · simp only [if_pos h]
    constructor
    · intro hfalse
      cases hfalse
    · rintro ⟨hlt, -⟩
      omega
  · have hlt : ctx.busyExecutors < ctx.numExecutors := Nat.lt_of_not_le h
    simp only [if_neg h]
    by_cases h2 : ctx.jobPatterns.any (fun p => fnm p run.name) = true
    · simp only [h2, if_pos rfl]
      refine ⟨fun _ => ⟨hlt, Or.inl ?_⟩, fun _ => rfl⟩
      simpa [List.any_eq_true] using h2
    · rw [if_neg (by simpa using h2)]
      constructor
      · intro h3
        exact ⟨hlt, Or.inr (by simpa [List.any_eq_true] using h3)⟩
      · rintro ⟨-, h3 | h3⟩
        · exact absurd (List.any_eq_true.mpr h3) h2
        · exact List.any_eq_true.mpr h3

/-- Claim C4: when `cfg/jobs/<name>.run` does not exist, `queueJob` returns
null and leaves the state untouched: no build number allocated, no queue
insertion, no builds row, no event. -/
theorem queueJob_missing_run_file (fnm : String → String → Bool) (st : LaminarState)
    (nm : String) (front : Bool) (h : st.hasRunFile nm = false) :
    queueJob fnm st nm front = (none, st) := by
  unfold queueJob
  rw [h]
  simp

theorem queueJob_missing_run_file_witness :
    queueJob fnmEq c4State "ghost" false = (none, c4State) :=
  queueJob_missing_run_file fnmEq c4State "ghost" false rfl

/-- Claim C5 (code bug): the lastResult hint that `tryStartRun` passes to the
started run. The code's query `SELECT result FROM builds WHERE name = $1 ORDER
BY completedAt DESC LIMIT 1` runs on PostgreSQL, where DESC order puts NULLs
first, so the freshly queued row of the run being started (completedAt NULL,
result NULL) always wins and the hint degenerates to UNKNOWN (0) — here even
though build 1 of the job completed with SUCCESS (5), contradicting the code's
own comment that NULL-completedAt rows "should be at the end of a DESC ordered
query" and the spec's "most recently completed result for the job". -/
theorem tryStartRun_lastResult_shadowed :
    (tryStartRun fnmEq c5State c5Run).map (fun p => p.1.lastResult) = some 0 ∧
      lastResultQuery c5State.builds "alpha" = 0 ∧
      specLastResult c5State.builds "alpha" = 5 := by
  refine ⟨?_, by decide, by decide⟩
  decide

/-- Claim C7 (counterexample): a state whose builds table holds exactly one
run, completed (completedAt and result set) with an empty persisted output
blob, and no active runs; `handleLogRequest` returns missing for it, although
the claim says a completed run always yields its persisted blob. -/
theorem handleLogRequest_empty_blob_missing :
    c7State.builds = [c7Row] ∧ c7Row.completedAt.isSome = true ∧
      c7Row.result.isSome = true ∧ c7Row.output = some "" ∧
      c7State.activeJobs = [] ∧ handleLogRequest c7State "alpha" 1 = none := by
  refine ⟨rfl, rfl, rfl, rfl, rfl, ?_⟩
  decide

/-- Claim C7 (amended): `handleLogRequest` returns the live log buffer with
complete=false when the run is active; it returns the persisted blob with
complete=true when the run is completed and the blob is non-empty; and it
returns missing when no builds row exists or when the stored output is empty
(the `if(output.size())` guard treats an empty blob as missing). -/
theorem handleLogRequest_cases (st : LaminarState) (nm : String) (num : Nat) :
    (∀ run, activeRunLookup st.activeJobs nm num = some run →
      handleLogRequest st nm num = some (run.log, false)) ∧
    (∀ row s, activeRunLookup st.activeJobs nm num = none →
      rowsFor st.builds nm num = [row] → row.output = some s → s ≠ "" →
      handleLogRequest st nm num = some (s, true)) ∧
    (activeRunLookup st.activeJobs nm num = none → rowsFor st.builds nm num = [] →
      handleLogRequest st nm num = none) ∧
    (∀ row, activeRunLookup st.activeJobs nm num = none →
      rowsFor st.builds nm num = [row] → row.output = some "" →
      handleLogRequest st nm num = none) := by
  refine ⟨?_, ?_, ?_, ?_⟩
  · intro run hrun
    unfold handleLogRequest
    rw [hrun]
  · intro row s hnone hrows hout hs
    unfold handleLogRequest
    rw [hnone]
    have hdb : dbOutput st.builds nm num = s := by
      unfold dbOutput
      rw [hrows]
      simp [hout]
    rw [hdb]
    have : s.length ≠ 0 := fun hz => hs (string_eq_empty_of_length_eq_zero hz)
    simp [this]
  · intro hnone hrows
    unfold handleLogRequest
    rw [hnone]
    have hdb : dbOutput st.builds nm num = "" := by
      unfold dbOutput
      rw [hrows]
      rfl
    rw [hdb]
    simp
  · intro row hnone hrows hout
    unfold handleLogRequest
    rw [hnone]
    have hdb : dbOutput st.builds nm num = "" := by
      unfold dbOutput
      rw [hrows]
      simp [hout]
    rw [hdb]
    simp

theorem handleLogRequest_cases_witness :
    handleLogRequest c7WitState "beta" 3 = some ("hello", false) :=
  (handleLogRequest_cases c7WitState "beta" 3).1 c7ActiveRun (by decide)

/-- Claim C10: the `pages` field of the JOB-scope status document is
`(nRuns-1)/20 + 1` in unsigned 32-bit arithmetic over the number of completed
builds of the job; for at least one completed build this equals the ceiling of
nRuns/20, and for zero completed builds the subtraction wraps modulo 2^32,
yielding 214748365 instead of 1. -/
theorem getStatusJobPages_eq (builds : List BuildRow) (nm : String) :
    (1 ≤ countCompleted builds nm → countCompleted builds nm < 4294967296 →
      getStatusJobPages builds nm = (countCompleted builds nm - 1) / 20 + 1 ∧
      getStatusJobPages builds nm = (countCompleted builds nm + 19) / 20) ∧
    (countCompleted builds nm = 0 → getStatusJobPages builds nm = 214748365) := by
  constructor
  · intro h1 h2
    set n := countCompleted builds nm with hn
    have hmod : u32 (u32 n + (4294967296 - 1)) = n - 1 := by
      unfold u32
      omega
    unfold getStatusJobPages pagesOf runsPerPage
    rw [← hn, hmod]
    constructor
    · rfl
    · omega
  · intro h0
    unfold getStatusJobPages pagesOf runsPerPage u32
    rw [h0]

theorem tryStartRun_some (fnm : String → String → Bool) (st : LaminarState) (run r2 : Run)
    (st2 : LaminarState) (h : tryStartRun fnm st run = some (r2, st2)) :
    ∃ i, startIdx fnm st.jobContexts run st.contexts = some i ∧
      r2 = startedRun st run i ∧ st2 = startedState st run i := by
  unfold tryStartRun at h
  rcases Option.map_eq_some'.mp h with ⟨i, hi, hpair⟩
  exact ⟨i, hi, (congrArg Prod.fst hpair).symm, (congrArg Prod.snd hpair).symm⟩

theorem startedState_activeJobs (st : LaminarState) (run : Run) (i : Nat) :
    (startedState st run i).activeJobs = st.activeJobs := rfl

theorem startedState_contexts (st : LaminarState) (run : Run) (i : Nat) :
    (startedState st run i).contexts = setBusy (fun b => b + 1) st.contexts i := rfl

theorem startedState_events (st : LaminarState) (run : Run) (i : Nat) :
    (startedState st run i).events = st.events ++ [Event.jobStarted run.name run.build] := rfl

theorem startedRun_ctxIdx (st : LaminarState) (run : Run) (i : Nat) :
    (startedRun st run i).ctxIdx = some i := rfl

theorem assignLoop_shape (fnm : String → String → Bool) :
    ∀ (pending : List Run) (st : LaminarState) (kept : List Run),
      ∃ q started,
        (assignLoop fnm st pending kept).queuedJobs = kept.reverse ++ q ∧
        q.Sublist pending ∧
        (assignLoop fnm st pending kept).activeJobs = st.activeJobs ++ started ∧
        started.length + q.length = pending.length := by
  intro pending
  induction pending with
  | nil =>
    intro st kept
    exact ⟨[], [], by simp [assignLoop], List.Sublist.refl _, by simp [assignLoop], rfl⟩
  | cons r rest ih =>
    intro st kept
    cases htr : tryStartRun fnm st r with
    | none =>
      rcases ih st (r :: kept) with ⟨q, started, hq, hsub, hact, hlen⟩
      refine ⟨r :: q, started, ?_, hsub.cons₂ r, ?_, ?_⟩
      · simp only [assignLoop, htr]
        rw [hq]
        simp
      · simp only [assignLoop, htr]
        exact hact
      · simp only [List.length_cons] at hlen ⊢
        omega
    | some pr =>
      obtain ⟨r2, st2⟩ := pr
      rcases tryStartRun_some fnm st r r2 st2 htr with ⟨i, hi, hr2, hst2⟩
      rcases ih { st2 with activeJobs := st2.activeJobs ++ [r2] } kept with
        ⟨q, started, hq, hsub, hact, hlen⟩
      refine ⟨q, r2 :: started, ?_, hsub.cons r, ?_, ?_⟩
      · simp only [assignLoop, htr]
        exact hq
      · simp only [assignLoop, htr]
        rw [hact]
        subst hst2
        simp [startedState]
      · simp only [List.length_cons] at hlen ⊢
        omega

/-- Claim C3: assignNewJobs scans the whole queue once: the remaining queue is
a subsequence of the original (failed entries keep their relative positions),
the active set grows by exactly the started entries, and every original entry
is either started or kept (their counts add up). Moreover dispatch is not
strictly FIFO: when the head fails to start but the next entry can be placed
(in the unchanged state), that next entry is started and moved to the active
set. -/
theorem assignNewJobs_scan (fnm : String → String → Bool) (st : LaminarState) :
    (∃ q started,
      (assignNewJobs fnm st).queuedJobs = q ∧ q.Sublist st.queuedJobs ∧
      (assignNewJobs fnm st).activeJobs = st.activeJobs ++ started ∧
      started.length + q.length = st.queuedJobs.length) ∧
    (∀ r0 r1 rest i, st.queuedJobs = r0 :: r1 :: rest →
      startIdx fnm st.jobContexts r0 st.contexts = none →
      startIdx fnm st.jobContexts r1 st.contexts = some i →
      startedRun st r1 i ∈ (assignNewJobs fnm st).activeJobs) := by
  constructor
  · rcases assignLoop_shape fnm st.queuedJobs st [] with ⟨q, started, hq, hsub, hact, hlen⟩
    exact ⟨q, started, by simpa using hq, hsub, hact, hlen⟩
  · intro r0 r1 rest i hqueue h0 h1
    have htr0 : tryStartRun fnm st r0 = none := by
      unfold tryStartRun
      rw [h0]
      rfl
    have htr1 : tryStartRun fnm st r1 = some (startedRun st r1 i, startedState st r1 i) := by
      unfold tryStartRun
      rw [h1]
      rfl
    unfold assignNewJobs
    rw [hqueue]
    simp only [assignLoop, htr0, htr1]
    rcases assignLoop_shape fnm rest
        { startedState st r1 i with
          activeJobs := (startedState st r1 i).activeJobs ++ [startedRun st r1 i] } [r0] with
      ⟨q, started, hq, hsub, hact, hlen⟩
    rw [hact]
    simp [startedState_activeJobs]

theorem assignNewJobs_scan_witness :
    startedRun c3State c3r1 1 ∈ (assignNewJobs fnmEq c3State).activeJobs :=
  (assignNewJobs_scan fnmEq c3State).2 c3r0 c3r1 [] 1 rfl (by decide) (by decide)

theorem assignLoop_noStart (fnm : String → String → Bool) :
    ∀ (pending : List Run) (st : LaminarState) (kept : List Run),
      (∀ r ∈ pending, startIdx fnm st.jobContexts r st.contexts = none) →
      assignLoop fnm st pending kept = { st with queuedJobs := kept.reverse ++ pending } := by
  intro pending
  induction pending with
  | nil =>
    intro st kept _
    simp [assignLoop]
  | cons r rest ih =>
    intro st kept H
    have htr : tryStartRun fnm st r = none := by
      unfold tryStartRun
      rw [H r (List.mem_cons_self r rest)]
      rfl
    simp only [assignLoop, htr]
    rw [ih st (r :: kept) (fun x hx => H x (List.mem_cons_of_mem r hx))]
    have hrev : (r :: kept).reverse ++ rest = kept.reverse ++ (r :: rest) := by
      simp
    rw [hrev]

theorem assignNewJobs_noStart (fnm : String → String → Bool) (st : LaminarState)
    (H : ∀ r ∈ st.queuedJobs, startIdx fnm st.jobContexts r st.contexts = none) :
    assignNewJobs fnm st = st := by
  unfold assignNewJobs
  rw [assignLoop_noStart fnm st.queuedJobs st [] H]
  cases st
  simp

/-- Claim C9: when no queued run can be placed (no context passes canQueue for
any of them), assignNewJobs is a no-op, so running it a second time leaves the
queue, the active set and every context's busyExecutors exactly as the first
invocation did. -/
theorem assignNewJobs_idempotent_blocked (fnm : String → String → Bool) (st : LaminarState)
    (H : ∀ r ∈ st.queuedJobs, startIdx fnm st.jobContexts r st.contexts = none) :
    (assignNewJobs fnm (assignNewJobs fnm st)).queuedJobs = (assignNewJobs fnm st).queuedJobs ∧
    (assignNewJobs fnm (assignNewJobs fnm st)).activeJobs = (assignNewJobs fnm st).activeJobs ∧
    (assignNewJobs fnm (assignNewJobs fnm st)).contexts = (assignNewJobs fnm st).contexts := by
  have h := assignNewJobs_noStart fnm st H
  rw [h, h]
  exact ⟨rfl, rfl, rfl⟩

theorem assignNewJobs_idempotent_blocked_witness :
    (assignNewJobs fnmEq (assignNewJobs fnmEq c9State)).queuedJobs
        = (assignNewJobs fnmEq c9State).queuedJobs ∧
      (assignNewJobs fnmEq (assignNewJobs fnmEq c9State)).activeJobs
        = (assignNewJobs fnmEq c9State).activeJobs ∧
      (assignNewJobs fnmEq (assignNewJobs fnmEq c9State)).contexts
        = (assignNewJobs fnmEq c9State).contexts :=
  assignNewJobs_idempotent_blocked fnmEq c9State (by decide)

theorem isJobQueued_false_of_started (e : Event) (h : isJobStarted e = true) :
    isJobQueued e = false := by
  cases e <;> simp_all [isJobStarted, isJobQueued]

theorem assignLoop_events (fnm : String → String → Bool) :
    ∀ (pending : List Run) (st : LaminarState) (kept : List Run),
      ∃ tail, (assignLoop fnm st pending kept).events = st.events ++ tail ∧
        ∀ e ∈ tail, isJobStarted e = true := by
  intro pending
  induction pending with
  | nil =>
    intro st kept
    exact ⟨[], by simp [assignLoop], by simp⟩
  | cons r rest ih =>
    intro st kept
    cases htr : tryStartRun fnm st r with
    | none =>
      rcases ih st (r :: kept) with ⟨tail, ht, hs⟩
      exact ⟨tail, by simp only [assignLoop, htr]; exact ht, hs⟩
    | some pr =>
      obtain ⟨r2, st2⟩ := pr
      rcases tryStartRun_some fnm st r r2 st2 htr with ⟨i, hi, hr2, hst2⟩
      rcases ih { st2 with activeJobs := st2.activeJobs ++ [r2] } kept with ⟨tail, ht, hs⟩
      refine ⟨Event.jobStarted r.name r.build :: tail, ?_, ?_⟩
      · simp only [assignLoop, htr]
        rw [ht]
        subst hst2
        simp [startedState]
      · intro e he
        rcases List.mem_cons.mp he with he | he
        · subst he
          rfl
        · exact hs e he

/-- Claim C8: a successful queueJob returns the new run, appends exactly one
new job_queued event (the dispatcher pass that follows only appends
job_started events), that event carries queueIndex 0 when queued at the front
and the old queue length (new size minus one) otherwise, and at that index the
queue at emission time holds exactly the new run. -/
theorem queueJob_emits_job_queued (fnm : String → String → Bool) (st : LaminarState)
    (nm : String) (front : Bool) (h : st.hasRunFile nm = true) :
    (queueJob fnm st nm front).1 = some (queuedRun st nm) ∧
    ((queueJob fnm st nm front).2).events.countP isJobQueued
      = st.events.countP isJobQueued + 1 ∧
    ((queueJob fnm st nm front).2).events.take (st.events.length + 1)
      = st.events ++ [Event.jobQueued nm (st.buildNums nm + 1)
          (if front then 0 else st.queuedJobs.length)] ∧
    (pushQueue st nm front)[if front then 0 else st.queuedJobs.length]?
      = some (queuedRun st nm) := by
  have hq : queueJob fnm st nm front =
      (some (queuedRun st nm), assignNewJobs fnm (queuedStateAfter st nm front)) := by
    unfold queueJob
    rw [if_pos h]
  rw [hq]
  have hidx : (if front then 0 else (pushQueue st nm front).length - 1)
      = (if front then 0 else st.queuedJobs.length) := by
    cases front <;> simp [pushQueue]
  rcases assignLoop_events fnm (queuedStateAfter st nm front).queuedJobs
      (queuedStateAfter st nm front) [] with ⟨tail, ht, hs⟩
  have hev : (assignNewJobs fnm (queuedStateAfter st nm front)).events
      = (st.events ++ [Event.jobQueued nm (st.buildNums nm + 1)
          (if front then 0 else st.queuedJobs.length)]) ++ tail := by
    rw [← hidx]
    exact ht
  refine ⟨rfl, ?_, ?_, ?_⟩
  · rw [hev, List.countP_append, List.countP_append]
    have htail0 : tail.countP isJobQueued = 0 :=
      List.countP_eq_zero.mpr fun e he => by
        simp [isJobQueued_false_of_started e (hs e he)]
    rw [htail0]
    simp [List.countP_cons, isJobQueued]
  · rw [hev]
    have hlen : st.events.length + 1
        = (st.events ++ [Event.jobQueued nm (st.buildNums nm + 1)
            (if front then 0 else st.queuedJobs.length)]).length := by
      simp
    rw [hlen, List.take_left]
  · cases front
    · simp [pushQueue, List.getElem?_concat_length]
    · simp [pushQueue]

theorem queueJob_emits_job_queued_witness :
    (queueJob fnmEq c8State "alpha" false).1 = some (queuedRun c8State "alpha") ∧
      ((queueJob fnmEq c8State "alpha" false).2).events.countP isJobQueued
        = c8State.events.countP isJobQueued + 1 ∧
      ((queueJob fnmEq c8State "alpha" false).2).events.take (c8State.events.length + 1)
        = c8State.events ++ [Event.jobQueued "alpha" (c8State.buildNums "alpha" + 1)
            (if false then 0 else c8State.queuedJobs.length)] ∧
      (pushQueue c8State "alpha" false)[if false then 0 else c8State.queuedJobs.length]?
        = some (queuedRun c8State "alpha") :=
  queueJob_emits_job_queued fnmEq c8State "alpha" false rfl

theorem retentionCount_eq (oa nk : Nat) (h1 : oa < 2147483648) (h2 : nk < 2147483648) :
    retentionCount oa nk = oa - nk := by
  unfold retentionCount retentionStart toInt32 u32
  split <;> omega

theorem retentionLoop_subset (nm : String) :
    ∀ (s : Nat) (dirs : List (String × Nat)), retentionLoop nm dirs s ⊆ dirs := by
  intro s
  induction s with
  | zero => intro dirs x hx; exact hx
  | succ i ih =>
    intro dirs x hx
    by_cases hmem : (nm, i + 1) ∈ dirs
    · simp only [retentionLoop, if_pos hmem] at hx
      exact List.erase_subset _ _ (ih _ hx)
    · simp only [retentionLoop, if_neg hmem] at hx
      exact hx

theorem retentionLoop_keeps_above (nm : String) :
    ∀ (s : Nat) (dirs : List (String × Nat)) (d : String × Nat), d ∈ dirs →
      (s + 1 ≤ d.2 ∨ d.1 ≠ nm) → d ∈ retentionLoop nm dirs s := by
  intro s
  induction s with
  | zero => intro dirs d hd _; exact hd
  | succ i ih =>
    intro dirs d hd hcond
    by_cases hmem : (nm, i + 1) ∈ dirs
    · simp only [retentionLoop, if_pos hmem]
      have hne : d ≠ (nm, i + 1) := by
        intro he
        rcases hcond with hc | hc
        · rw [he] at hc
          omega
        · rw [he] at hc
          exact hc rfl
      refine ih (dirs.erase (nm, i + 1)) d ((List.mem_erase_of_ne hne).mpr hd) ?_
      rcases hcond with hc | hc
      · exact Or.inl (by omega)
      · exact Or.inr hc
    · simp only [retentionLoop, if_neg hmem]
      exact hd

theorem retentionLoop_removes (nm : String) :
    ∀ (s : Nat) (dirs : List (String × Nat)), dirs.Nodup →
      ∀ j, 1 ≤ j → j ≤ s → (∀ m, j ≤ m → m ≤ s → (nm, m) ∈ dirs) →
      (nm, j) ∉ retentionLoop nm dirs s := by
  intro s
  induction s with
  | zero => intro dirs _ j h1 hj _; omega
  | succ i ih =>
    intro dirs hnd j h1 hj hall
    have hmem : (nm, i + 1) ∈ dirs := hall (i + 1) hj (Nat.le_refl _)
    simp only [retentionLoop, if_pos hmem]
    by_cases hji : j = i + 1
    · subst hji
      intro hcontra
      have hin : (nm, i + 1) ∈ dirs.erase (nm, i + 1) :=
        retentionLoop_subset nm i (dirs.erase (nm, i + 1)) hcontra
      exact ((hnd.mem_erase_iff).mp hin).1 rfl
    · have hj2 : j ≤ i := by omega
      refine ih (dirs.erase (nm, i + 1)) (hnd.erase _) j h1 hj2 ?_
      intro m hm1 hm2
      have hmne : (nm, m) ≠ (nm, i + 1) := by
        intro he
        have := congrArg Prod.snd he
        simp at this
        omega
      exact (List.mem_erase_of_ne hmne).mpr (hall m hm1 (by omega))

theorem retentionLoop_stops (nm : String) :
    ∀ (s : Nat) (dirs : List (String × Nat)) (k : Nat), k ≤ s → (nm, k) ∉ dirs →
      ∀ j, j ≤ k → (nm, j) ∈ dirs → (nm, j) ∈ retentionLoop nm dirs s := by
  intro s
  induction s with
  | zero => intro dirs k _ _ j _ hjmem; exact hjmem
  | succ i ih =>
    intro dirs k hk hkn j hj hjmem
    by_cases hmem : (nm, i + 1) ∈ dirs
    · simp only [retentionLoop, if_pos hmem]
      have hkne : k ≠ i + 1 := fun he => hkn (he ▸ hmem)
      have hk2 : k ≤ i := by omega
      refine ih (dirs.erase (nm, i + 1)) k hk2 (fun hc => hkn (List.erase_subset _ _ hc)) j hj ?_
      have hne : (nm, j) ≠ (nm, i + 1) := by
        intro he
        have := congrArg Prod.snd he
        simp at this
        omega
      exact (List.mem_erase_of_ne hne).mpr hjmem
    · simp only [retentionLoop, if_neg hmem]
      exact hjmem

/-- Claim C6: with oldestActive computed from the active runs left after the
finished run is erased (min active build - 1, else buildNums), the retention
step of handleRunFinished runs the deletion loop from oldestActive -
numKeepRunDirs down towards 1 (the int cast of the unsigned difference yields
exactly the truncated subtraction for in-range values): it never touches a
directory of another job or one with index at least oldestActive -
numKeepRunDirs + 1, removes every index down from the start as long as all
directories above it exist, and keeps everything at or below the first missing
index. -/
theorem handleRunFinished_retention (st : LaminarState) (r : Run) (result : Nat)
    (hoa : oldestActiveOf (st.activeJobs.erase r) st.buildNums r.name < 2147483648)
    (hnk : st.numKeepRunDirs < 2147483648)
    (hnd : st.rundirs.Nodup) :
    (finishCore st r result).rundirs
      = retentionLoop r.name st.rundirs
          (oldestActiveOf (st.activeJobs.erase r) st.buildNums r.name - st.numKeepRunDirs) ∧
    (∀ d ∈ st.rundirs,
      (oldestActiveOf (st.activeJobs.erase r) st.buildNums r.name - st.numKeepRunDirs) + 1 ≤ d.2
        ∨ d.1 ≠ r.name →
      d ∈ (finishCore st r result).rundirs) ∧
    (∀ j, 1 ≤ j →
      j ≤ oldestActiveOf (st.activeJobs.erase r) st.buildNums r.name - st.numKeepRunDirs →
      (∀ m, j ≤ m →
        m ≤ oldestActiveOf (st.activeJobs.erase r) st.buildNums r.name - st.numKeepRunDirs →
        (r.name, m) ∈ st.rundirs) →
      (r.name, j) ∉ (finishCore st r result).rundirs) ∧
    (∀ k, k ≤ oldestActiveOf (st.activeJobs.erase r) st.buildNums r.name - st.numKeepRunDirs →
      (r.name, k) ∉ st.rundirs →
      ∀ j, j ≤ k → (r.name, j) ∈ st.rundirs →
      (r.name, j) ∈ (finishCore st r result).rundirs) := by
  have hcnt : retentionCount (oldestActiveOf (st.activeJobs.erase r) st.buildNums r.name)
      st.numKeepRunDirs
      = oldestActiveOf (st.activeJobs.erase r) st.buildNums r.name - st.numKeepRunDirs :=
    retentionCount_eq _ _ hoa hnk
  have hfc : (finishCore st r result).rundirs
      = retentionLoop r.name st.rundirs
          (retentionCount (oldestActiveOf (st.activeJobs.erase r) st.buildNums r.name)
            st.numKeepRunDirs) := rfl
  refine ⟨by rw [hfc, hcnt], ?_, ?_, ?_⟩
  · intro d hd hcond
    rw [hfc, hcnt]
    exact retentionLoop_keeps_above r.name _ st.rundirs d hd hcond
  · intro j h1 hj hall
    rw [hfc, hcnt]
    exact retentionLoop_removes r.name _ st.rundirs hnd j h1 hj hall
  · intro k hk hkn j hj hjm
    rw [hfc, hcnt]
    exact retentionLoop_stops r.name _ st.rundirs k hk hkn j hj hjm

theorem handleRunFinished_retention_witness :
    ("alpha", 4) ∈ (finishCore c6State c6Run 5).rundirs ∧
      ("alpha", 1) ∉ (finishCore c6State c6Run 5).rundirs := by
  have h := handleRunFinished_retention c6State c6Run 5 (by decide) (by decide) (by decide)
  constructor
  · exact h.2.1 ("alpha", 4) (by decide) (by decide)
  · refine h.2.2.1 1 (by decide) (by decide) ?_
    intro m hm1 hm2
    have hs : oldestActiveOf (c6State.activeJobs.erase c6Run) c6State.buildNums c6Run.name
        - c6State.numKeepRunDirs = 3 := by decide
    rw [hs] at hm2
    interval_cases m <;> decide

theorem startIdx_spec (fnm : String → String → Bool) (jc : String → List String) (run : Run) :
    ∀ (ctxs : List Context) (i : Nat), startIdx fnm jc run ctxs = some i →
      ∃ c, ctxs[i]? = some c ∧ canQueue fnm jc c run = true := by
  intro ctxs
  induction ctxs with
  | nil => intro i h; cases h
  | cons c cs ih =>
    intro i h
    unfold startIdx at h
    by_cases hc : canQueue fnm jc c run = true
    · rw [if_pos hc] at h
      cases h
      exact ⟨c, by simp, hc⟩
    · rw [if_neg hc] at h
      rcases Option.map_eq_some'.mp h with ⟨k, hk, hik⟩
      subst hik
      rcases ih k hk with ⟨c2, hc2, hq⟩
      exact ⟨c2, by simpa using hc2, hq⟩

theorem canQueue_capacity (fnm : String → String → Bool) (jc : String → List String)
    (ctx : Context) (run : Run) (h : canQueue fnm jc ctx run = true) :
    ctx.busyExecutors < ctx.numExecutors := by
  unfold canQueue at h
  by_cases hle : ctx.numExecutors ≤ ctx.busyExecutors
  · rw [if_pos hle] at h
    cases h
  · omega

theorem setBusy_length (f : Nat → Nat) :
    ∀ (cs : List Context) (i : Nat), (setBusy f cs i).length = cs.length := by
  intro cs
  induction cs with
  | nil => intro i; rfl
  | cons c t ih =>
    intro i
    cases i with
    | zero => rfl
    | succ j => simp [setBusy, ih j]

theorem setBusy_get_self (f : Nat → Nat) :
    ∀ (cs : List Context) (i : Nat) (c : Context), cs[i]? = some c →
      (setBusy f cs i)[i]? = some { c with busyExecutors := f c.busyExecutors } := by
  intro cs
  induction cs with
  | nil => intro i c h; simp at h
  | cons a t ih =>
    intro i c h
    cases i with
    | zero =>
      rw [List.getElem?_cons_zero] at h
      injection h with h
      subst h
      simp [setBusy]
    | succ j =>
      rw [List.getElem?_cons_succ] at h
      simp only [setBusy, List.getElem?_cons_succ]
      exact ih j c h

theorem setBusy_get_ne (f : Nat → Nat) :
    ∀ (cs : List Context) (i j : Nat), j ≠ i → (setBusy f cs i)[j]? = cs[j]? := by
  intro cs
  induction cs with
  | nil => intro i j _; rfl
  | cons a t ih =>
    intro i j hne
    cases i with
    | zero =>
      cases j with
      | zero => exact absurd rfl hne
      | succ k => simp [setBusy, List.getElem?_cons_succ]
    | succ i2 =>
      cases j with
      | zero => simp [setBusy]
      | succ k =>
        simp only [setBusy, List.getElem?_cons_succ]
        exact ih i2 k (fun he => hne (by rw [he]))

theorem countCtx_cons (a : Run) (l : List Run) (i : Nat) :
    countCtx (a :: l) i = (if a.ctxIdx = some i then 1 else 0) + countCtx l i := by
  by_cases h : a.ctxIdx = some i
  · simp [countCtx, List.filter_cons, h, Nat.add_comm]
  · simp [countCtx, List.filter_cons, h]

theorem countCtx_append_one (l : List Run) (a : Run) (i : Nat) :
    countCtx (l ++ [a]) i = countCtx l i + (if a.ctxIdx = some i then 1 else 0) := by
  by_cases h : a.ctxIdx = some i <;>
    simp [countCtx, List.filter_append, List.filter_cons, h]

theorem countCtx_pos (l : List Run) (r : Run) (i : Nat) (hr : r ∈ l)
    (hi : r.ctxIdx = some i) : 1 ≤ countCtx l i := by
  have hmem : r ∈ l.filter fun x => x.ctxIdx == some i :=
    List.mem_filter.mpr ⟨hr, by simp [hi]⟩
  have := List.length_pos.mpr (List.ne_nil_of_mem hmem)
  simpa [countCtx] using this

theorem countCtx_erase_self (l : List Run) (r : Run) (i : Nat) (hr : r ∈ l)
    (hi : r.ctxIdx = some i) : countCtx (l.erase r) i + 1 = countCtx l i := by
  induction l with
  | nil => cases hr
  | cons a t ih =>
    rw [List.erase_cons]
    by_cases ha : a = r
    · rw [if_pos (by simp [ha])]
      subst ha
      rw [countCtx_cons]
      simp [hi]
      omega
    · rw [if_neg (by simp [ha])]
      have hrt : r ∈ t := by
        rcases List.mem_cons.mp hr with he | he
        · exact absurd he.symm ha
        · exact he
      have hih := ih hrt
      by_cases hai : a.ctxIdx = some i <;>
        simp only [countCtx_cons, hai, if_pos, if_neg, if_true, if_false] <;>
        omega

theorem countCtx_erase_ne (l : List Run) (r : Run) (j : Nat)
    (hj : r.ctxIdx ≠ some j) : countCtx (l.erase r) j = countCtx l j := by
  induction l with
  | nil => rfl
  | cons a t ih =>
    rw [List.erase_cons]
    by_cases ha : a = r
    · rw [if_pos (by simp [ha])]
      rw [countCtx_cons]
      have hne : a.ctxIdx ≠ some j := ha ▸ hj
      simp [hne]
    · rw [if_neg (by simp [ha])]
      rw [countCtx_cons, countCtx_cons, ih]

theorem mem_of_getElem_eq_some {α : Type} {l : List α} {i : Nat} {a : α}
    (h : l[i]? = some a) : a ∈ l := by
  rcases List.getElem?_eq_some.mp h with ⟨hl, he⟩
  exact he ▸ List.getElem_mem hl

theorem lt_length_of_getElem_eq_some {α : Type} {l : List α} {i : Nat} {a : α}
    (h : l[i]? = some a) : i < l.length :=
  (List.getElem?_eq_some.mp h).1

theorem inv_startOne (fnm : String → String → Bool) (st : LaminarState) (r r2 : Run)
    (st2 : LaminarState) (hInv : Inv st) (h : tryStartRun fnm st r = some (r2, st2)) :
    Inv { st2 with activeJobs := st2.activeJobs ++ [r2] } := by
  rcases tryStartRun_some fnm st r r2 st2 h with ⟨i, hi, hr2, hst2⟩
  rcases startIdx_spec fnm st.jobContexts r st.contexts i hi with ⟨c, hc, hcq⟩
  subst hr2
  subst hst2
  obtain ⟨hCtx, hAct⟩ := hInv
  constructor
  · intro j cj hj
    have hj2 : (setBusy (fun b => b + 1) st.contexts i)[j]? = some cj := hj
    by_cases hij : j = i
    · subst hij
      have hsb := setBusy_get_self (fun b => b + 1) st.contexts j c hc
      rw [hsb] at hj2
      injection hj2 with hj2
      subst hj2
      have hlt := canQueue_capacity fnm st.jobContexts c r hcq
      have hcount := (hCtx j c hc).2
      constructor
      · simpa using hlt
      · rw [startedState_activeJobs, countCtx_append_one]
        simp [startedRun]
        omega
    · have hj3 : st.contexts[j]? = some cj := by
        rw [← setBusy_get_ne (fun b => b + 1) st.contexts i j hij]
        exact hj2
      rcases hCtx j cj hj3 with ⟨hle, hcount⟩
      refine ⟨hle, ?_⟩
      have hne : ¬ (startedRun st r i).ctxIdx = some j := by
        simp only [startedRun]
        simp
        omega
      rw [countCtx_append_one, if_neg hne]
      simpa using hcount
  · intro x hx
    have hx2 : x ∈ st.activeJobs ++ [startedRun st r i] := hx
    rcases List.mem_append.mp hx2 with hx3 | hx3
    · rcases hAct x hx3 with ⟨k, hk1, hk2⟩
      refine ⟨k, hk1, ?_⟩
      have hceq : ({ startedState st r i with
          activeJobs := (startedState st r i).activeJobs ++ [startedRun st r i] }).contexts
          = setBusy (fun b => b + 1) st.contexts i := rfl
      rw [hceq, setBusy_length]
      exact hk2
    · have hx4 : x = startedRun st r i := by simpa using hx3
      subst hx4
      refine ⟨i, rfl, ?_⟩
      have hlen : i < st.contexts.length := lt_length_of_getElem_eq_some hc
      have hceq : ({ startedState st r i with
          activeJobs := (startedState st r i).activeJobs ++ [startedRun st r i] }).contexts
          = setBusy (fun b => b + 1) st.contexts i := rfl
      rw [hceq, setBusy_length]
      exact hlen

theorem inv_assignLoop (fnm : String → String → Bool) :
    ∀ (pending : List Run) (st : LaminarState) (kept : List Run),
      Inv st → Inv (assignLoop fnm st pending kept) := by
  intro pending
  induction pending with
  | nil =>
    intro st kept hInv
    exact hInv
  | cons r rest ih =>
    intro st kept hInv
    cases htr : tryStartRun fnm st r with
    | none =>
      simp only [assignLoop, htr]
      exact ih st (r :: kept) hInv
    | some pr =>
      obtain ⟨r2, st2⟩ := pr
      simp only [assignLoop, htr]
      exact ih _ kept (inv_startOne fnm st r r2 st2 hInv htr)

theorem inv_queueJob (fnm : String → String → Bool) (st : LaminarState) (nm : String)
    (front : Bool) (hInv : Inv st) : Inv (queueJob fnm st nm front).2 := by
  unfold queueJob
  by_cases h : st.hasRunFile nm = true
  · rw [if_pos h]
    exact inv_assignLoop fnm (queuedStateAfter st nm front).queuedJobs
      (queuedStateAfter st nm front) [] hInv
  · rw [if_neg h]
    exact hInv

theorem inv_finishCore (st : LaminarState) (r : Run) (result : Nat) (hInv : Inv st)
    (hr : r ∈ st.activeJobs) : Inv (finishCore st r result) := by
  obtain ⟨hCtx, hAct⟩ := hInv
  rcases hAct r hr with ⟨i, hi, hlen⟩
  have hgd : r.ctxIdx.getD 0 = i := by rw [hi]; rfl
  have hctxs : (finishCore st r result).contexts
      = setBusy (fun b => b - 1) st.contexts (r.ctxIdx.getD 0) := rfl
  have hacts : (finishCore st r result).activeJobs = st.activeJobs.erase r := rfl
  constructor
  · intro j cj hj
    rw [hctxs, hgd] at hj
    by_cases hij : j = i
    · subst hij
      obtain ⟨c, hc⟩ : ∃ c, st.contexts[j]? = some c :=
        ⟨_, List.getElem?_eq_getElem hlen⟩
      have hsb := setBusy_get_self (fun b => b - 1) st.contexts j c hc
      rw [hsb] at hj
      injection hj with hj
      subst hj
      rcases hCtx j c hc with ⟨hle, hcount⟩
      have hpos : 1 ≤ countCtx st.activeJobs j := countCtx_pos st.activeJobs r j hr hi
      have herase := countCtx_erase_self st.activeJobs r j hr hi
      rw [hacts]
      constructor
      · simp
        omega
      · simp
        omega
    · have hj3 : st.contexts[j]? = some cj := by
        rw [← setBusy_get_ne (fun b => b - 1) st.contexts i j hij]
        exact hj
      rcases hCtx j cj hj3 with ⟨hle, hcount⟩
      refine ⟨hle, ?_⟩
      rw [hacts]
      rw [countCtx_erase_ne st.activeJobs r j (by rw [hi]; simp; omega)]
      exact hcount
  · intro x hx
    rw [hacts] at hx
    have hx2 : x ∈ st.activeJobs := List.erase_subset _ _ hx
    rcases hAct x hx2 with ⟨k, hk1, hk2⟩
    refine ⟨k, hk1, ?_⟩
    rw [hctxs, setBusy_length]
    exact hk2

theorem inv_schedReachable (fnm : String → String → Bool) (st : LaminarState)
    (h : SchedReachable fnm st) : Inv st := by
  induction h with
  | init st0 hinit =>
    obtain ⟨hq, ha, hc⟩ := hinit
    constructor
    · intro i c hic
      have hcm : c ∈ st0.contexts := mem_of_getElem_eq_some hic
      rw [hc c hcm, ha]
      exact ⟨Nat.zero_le _, rfl⟩
    · intro r hr
      rw [ha] at hr
      cases hr
  | queue st0 nm front _ ih => exact inv_queueJob fnm st0 nm front ih
  | assign st0 _ ih => exact inv_assignLoop fnm st0.queuedJobs st0 [] ih
  | finish st0 r result hr _ ih =>
    exact inv_assignLoop fnm _ _ [] (inv_finishCore st0 r result ih hr)

theorem invW_startOne (fnm : String → String → Bool) (st : LaminarState) (r r2 : Run)
    (st2 : LaminarState) (hInv : InvW st) (h : tryStartRun fnm st r = some (r2, st2)) :
    InvW { st2 with activeJobs := st2.activeJobs ++ [r2] } := by
  rcases tryStartRun_some fnm st r r2 st2 h with ⟨i, hi, hr2, hst2⟩
  rcases startIdx_spec fnm st.jobContexts r st.contexts i hi with ⟨c, hc, hcq⟩
  subst hr2
  subst hst2
  obtain ⟨hCount, hAct⟩ := hInv
  constructor
  · intro j cj hj
    have hj2 : (setBusy (fun b => b + 1) st.contexts i)[j]? = some cj := hj
    by_cases hij : j = i
    · subst hij
      have hsb := setBusy_get_self (fun b => b + 1) st.contexts j c hc
      rw [hsb] at hj2
      injection hj2 with hj2
      subst hj2
      have hcount := hCount j c hc
      rw [startedState_activeJobs, countCtx_append_one]
      simp [startedRun]
      omega
    · have hj3 : st.contexts[j]? = some cj := by
        rw [← setBusy_get_ne (fun b => b + 1) st.contexts i j hij]
        exact hj2
      have hcount := hCount j cj hj3
      have hne : ¬ (startedRun st r i).ctxIdx = some j := by
        simp only [startedRun]
        simp
        omega
      rw [startedState_activeJobs, countCtx_append_one, if_neg hne]
      simpa using hcount
  · intro x hx
    have hx2 : x ∈ st.activeJobs ++ [startedRun st r i] := hx
    rcases List.mem_append.mp hx2 with hx3 | hx3
    · rcases hAct x hx3 with ⟨k, hk1, hk2⟩
      refine ⟨k, hk1, ?_⟩
      have hceq : ({ startedState st r i with
          activeJobs := (startedState st r i).activeJobs ++ [startedRun st r i] }).contexts
          = setBusy (fun b => b + 1) st.contexts i := rfl
      rw [hceq, setBusy_length]
      exact hk2
    · have hx4 : x = startedRun st r i := by simpa using hx3
      subst hx4
      refine ⟨i, rfl, ?_⟩
      have hlen : i < st.contexts.length := lt_length_of_getElem_eq_some hc
      have hceq : ({ startedState st r i with
          activeJobs := (startedState st r i).activeJobs ++ [startedRun st r i] }).contexts
          = setBusy (fun b => b + 1) st.contexts i := rfl
      rw [hceq, setBusy_length]
      exact hlen

theorem invW_assignLoop (fnm : String → String → Bool) :
    ∀ (pending : List Run) (st : LaminarState) (kept : List Run),
      InvW st → InvW (assignLoop fnm st pending kept) := by
  intro pending
  induction pending with
  | nil =>
    intro st kept hInv
    exact hInv
  | cons r rest ih =>
    intro st kept hInv
    cases htr : tryStartRun fnm st r with
    | none =>
      simp only [assignLoop, htr]
      exact ih st (r :: kept) hInv
    | some pr =>
      obtain ⟨r2, st2⟩ := pr
      simp only [assignLoop, htr]
      exact ih _ kept (invW_startOne fnm st r r2 st2 hInv htr)

theorem invW_queueJob (fnm : String → String → Bool) (st : LaminarState) (nm : String)
    (front : Bool) (hInv : InvW st) : InvW (queueJob fnm st nm front).2 := by
  unfold queueJob
  by_cases h : st.hasRunFile nm = true
  · rw [if_pos h]
    exact invW_assignLoop fnm (queuedStateAfter st nm front).queuedJobs
      (queuedStateAfter st nm front) [] hInv
  · rw [if_neg h]
    exact hInv

theorem invW_finishCore (st : LaminarState) (r : Run) (result : Nat) (hInv : InvW st)
    (hr : r ∈ st.activeJobs) : InvW (finishCore st r result) := by
  obtain ⟨hCount, hAct⟩ := hInv
  rcases hAct r hr with ⟨i, hi, hlen⟩
  have hgd : r.ctxIdx.getD 0 = i := by rw [hi]; rfl
  have hctxs : (finishCore st r result).contexts
      = setBusy (fun b => b - 1) st.contexts (r.ctxIdx.getD 0) := rfl
  have hacts : (finishCore st r result).activeJobs = st.activeJobs.erase r := rfl
  constructor
  · intro j cj hj
    rw [hctxs, hgd] at hj
    by_cases hij : j = i
    · subst hij
      obtain ⟨c, hc⟩ : ∃ c, st.contexts[j]? = some c :=
        ⟨_, List.getElem?_eq_getElem hlen⟩
      have hsb := setBusy_get_self (fun b => b - 1) st.contexts j c hc
      rw [hsb] at hj
      injection hj with hj
      subst hj
      have hcount := hCount j c hc
      have hpos : 1 ≤ countCtx st.activeJobs j := countCtx_pos st.activeJobs r j hr hi
      have herase := countCtx_erase_self st.activeJobs r j hr hi
      rw [hacts]
      simp
      omega
    · have hj3 : st.contexts[j]? = some cj := by
        rw [← setBusy_get_ne (fun b => b - 1) st.contexts i j hij]
        exact hj
      have hcount := hCount j cj hj3
      rw [hacts]
      rw [countCtx_erase_ne st.activeJobs r j (by rw [hi]; simp; omega)]
      exact hcount
  · intro x hx
    rw [hacts] at hx
    have hx2 : x ∈ st.activeJobs := List.erase_subset _ _ hx
    rcases hAct x hx2 with ⟨k, hk1, hk2⟩
    refine ⟨k, hk1, ?_⟩
    rw [hctxs, setBusy_length]
    exact hk2

theorem invW_loadConfig (st : LaminarState) (exec : String → Nat)
    (pats : String → List String) (jc : String → List String) (keep : Nat)
    (hInv : InvW st) :
    InvW { st with contexts := loadConfigContexts exec pats st.contexts,
                   jobContexts := jc, numKeepRunDirs := keep } := by
  obtain ⟨hCount, hAct⟩ := hInv
  constructor
  · intro i c2 hc2
    have hmap : (loadConfigContexts exec pats st.contexts)[i]?
        = (st.contexts[i]?).map (fun c =>
            { c with numExecutors := exec c.name, jobPatterns := pats c.name }) := by
      unfold loadConfigContexts
      exact List.getElem?_map _ st.contexts i
    rw [hmap] at hc2
    rcases Option.map_eq_some'.mp hc2 with ⟨c, hc, hcc⟩
    subst hcc
    have := hCount i c hc
    simpa using this
  · intro x hx
    rcases hAct x hx with ⟨k, hk1, hk2⟩
    refine ⟨k, hk1, ?_⟩
    unfold loadConfigContexts
    simpa [List.length_map] using hk2

theorem invW_step (fnm : String → String → Bool) (st stB : LaminarState)
    (hInv : InvW st) (h : Step fnm st stB) : InvW stB := by
  cases h with
  | queue nm front => exact invW_queueJob fnm st nm front hInv
  | assign => exact invW_assignLoop fnm st.queuedJobs st [] hInv
  | finish r result hr =>
    exact invW_assignLoop fnm _ _ [] (invW_finishCore st r result hInv hr)
  | reload exec pats jc keep =>
    exact invW_assignLoop fnm _ _ [] (invW_loadConfig st exec pats jc keep hInv)

theorem invW_reachable (fnm : String → String → Bool) (st : LaminarState)
    (h : Reachable fnm st) : InvW st := by
  induction h with
  | init st0 hinit =>
    obtain ⟨hq, ha, hc⟩ := hinit
    constructor
    · intro i c hic
      rw [hc c (mem_of_getElem_eq_some hic), ha]
      rfl
    · intro r hr
      rw [ha] at hr
      cases hr
  | step st0 stB hreach hstep ih => exact invW_step fnm st0 stB ih hstep

/-- Claim C1 (counterexample): a reachable state in which a registered context
has busyExecutors strictly above numExecutors, refuting the claimed invariant
as stated. Build 1 of alpha is queued and started on the one-executor default
context (busyExecutors becomes 1); then a configuration reload re-reads the
edited context file with EXECUTORS = 0, rewriting numExecutors in place
(laminar.cpp:663) with no clamp, so the reached registry holds a context with
numExecutors = 0 < busyExecutors = 1. -/
theorem executor_accounting_counterexample :
    Reachable fnmEq c1bFinal ∧
      c1bFinal.contexts[0]? = some c1bCtx ∧
      c1bCtx.numExecutors < c1bCtx.busyExecutors := by
  refine ⟨?_, by decide, by decide⟩
  exact Reachable.step c1bMid c1bFinal
    (Reachable.step c1bState c1bMid
      (Reachable.init c1bState ⟨rfl, rfl, by decide⟩)
      (Step.queue c1bState "alpha" false))
    (Step.reload c1bMid c1bExec c1bPats c1bJc 0)

/-- Claim C1 (amended): in every reachable state — configuration reloads
included — every registered context's busyExecutors equals the number of
active runs assigned to it (and 0 is a lower bound by type); the capacity
bound busyExecutors ≤ numExecutors additionally holds in every state
reachable by the scheduler operations alone, but not in every reachable
state, because a reload rewrites numExecutors in place with no clamp (see the
counterexample). A successful tryStartRun increments exactly the chosen
context's busyExecutors, exactly when it produces the Running run, and
handleRunFinished decrements exactly the finished run's context once (its
counter is at least 1 there, so the decrement is genuine). -/
theorem executor_accounting (fnm : String → String → Bool) (st : LaminarState)
    (hreach : Reachable fnm st) :
    (∀ (i : Nat) (c : Context),
      st.contexts[i]? = some c → c.busyExecutors = countCtx st.activeJobs i) ∧
    (SchedReachable fnm st →
      ∀ (i : Nat) (c : Context),
        st.contexts[i]? = some c → c.busyExecutors ≤ c.numExecutors) ∧
    (∀ r r2 st2, tryStartRun fnm st r = some (r2, st2) →
      ∃ i c, r2.ctxIdx = some i ∧ st.contexts[i]? = some c ∧
        c.busyExecutors < c.numExecutors ∧
        st2.contexts[i]? = some { c with busyExecutors := c.busyExecutors + 1 } ∧
        (∀ j, j ≠ i → st2.contexts[j]? = st.contexts[j]?) ∧
        st2.activeJobs = st.activeJobs) ∧
    (∀ r result, r ∈ st.activeJobs →
      ∃ i c, r.ctxIdx = some i ∧ st.contexts[i]? = some c ∧
        1 ≤ c.busyExecutors ∧
        (finishCore st r result).contexts[i]?
          = some { c with busyExecutors := c.busyExecutors - 1 } ∧
        (∀ j, j ≠ i → (finishCore st r result).contexts[j]? = st.contexts[j]?)) := by
  obtain ⟨hCtx, hAct⟩ := invW_reachable fnm st hreach
  refine ⟨hCtx, ?_, ?_, ?_⟩
  · intro hsched i c hc
    exact ((inv_schedReachable fnm st hsched).1 i c hc).1
  · intro r r2 st2 h
    rcases tryStartRun_some fnm st r r2 st2 h with ⟨i, hi, hr2, hst2⟩
    rcases startIdx_spec fnm st.jobContexts r st.contexts i hi with ⟨c, hc, hcq⟩
    subst hr2
    subst hst2
    refine ⟨i, c, rfl, hc, canQueue_capacity fnm st.jobContexts c r hcq, ?_, ?_, rfl⟩
    · exact setBusy_get_self (fun b => b + 1) st.contexts i c hc
    · intro j hj
      exact setBusy_get_ne (fun b => b + 1) st.contexts i j hj
  · intro r result hr
    rcases hAct r hr with ⟨i, hi, hlen⟩
    obtain ⟨c, hc⟩ : ∃ c, st.contexts[i]? = some c := ⟨_, List.getElem?_eq_getElem hlen⟩
    have hgd : r.ctxIdx.getD 0 = i := by rw [hi]; rfl
    have hctxs : (finishCore st r result).contexts
        = setBusy (fun b => b - 1) st.contexts (r.ctxIdx.getD 0) := rfl
    refine ⟨i, c, hi, hc, ?_, ?_, ?_⟩
    · have hcount := hCtx i c hc
      have hpos := countCtx_pos st.activeJobs r i hr hi
      omega
    · rw [hctxs, hgd]
      exact setBusy_get_self (fun b => b - 1) st.contexts i c hc
    · intro j hj
      rw [hctxs, hgd]
      exact setBusy_get_ne (fun b => b - 1) st.contexts i j hj

theorem executor_accounting_witness :
    c1bMidCtx.busyExecutors = countCtx c1bMid.activeJobs 0 ∧
      c1bMidCtx.busyExecutors ≤ c1bMidCtx.numExecutors :=
  have h := executor_accounting fnmEq c1bMid
    (Reachable.step c1bState c1bMid
      (Reachable.init c1bState ⟨rfl, rfl, by decide⟩)
      (Step.queue c1bState "alpha" false))
  ⟨h.1 0 c1bMidCtx (by decide),
    h.2.1
      (SchedReachable.queue c1bState "alpha" false
        (SchedReachable.init c1bState ⟨rfl, rfl, by decide⟩))
      0 c1bMidCtx (by decide)⟩

theorem getStatusJobPages_eq_witness :
    (1 ≤ countCompleted c10Rows "gamma" ∧ getStatusJobPages c10Rows "gamma" = 1) ∧
      (countCompleted [] "gamma" = 0 ∧ getStatusJobPages [] "gamma" = 214748365) := by
  constructor
  · exact ⟨by decide, by
      have h := (getStatusJobPages_eq c10Rows "gamma").1 (by decide) (by decide)
      simpa using h.2⟩
  · exact ⟨rfl, (getStatusJobPages_eq [] "gamma").2 rfl⟩

end Laminar
